import Mathlib

/-!
Shallow embedding of the release-group token pipeline of
`scripts/generate_blacklist_from_srrdb.py` and `scripts/update_blacklist.py`.
Strings are modelled as `List Char`; the ASCII-range behaviour of the Python
string and regex primitives the scripts use is translated directly.
-/

namespace Jellysink

/-- ASCII range `A`-`Z`, the class `[A-Z]`. -/
def isUpperAlpha (c : Char) : Bool := 'A' ≤ c && c ≤ 'Z'

/-- ASCII range `a`-`z`, the class `[a-z]`. -/
def isLowerAlpha (c : Char) : Bool := 'a' ≤ c && c ≤ 'z'

/-- ASCII range `0`-`9`, the class `[0-9]`. -/
def isAsciiDigit (c : Char) : Bool := '0' ≤ c && c ≤ '9'

/-- The class `[A-Za-z]`. -/
def isAsciiLetter (c : Char) : Bool := isUpperAlpha c || isLowerAlpha c

/-- The class `[A-Za-z0-9]`: exactly the characters the extraction and shape
regexes of `generate_blacklist_from_srrdb.py` accept. -/
def isAsciiAlnum (c : Char) : Bool := isAsciiLetter c || isAsciiDigit c

/-- ASCII case lowering of one character, the per-character behaviour of
Python `str.lower()` on the ASCII range: shift an uppercase letter down by
32 code points, leave everything else alone. -/
def lowerChar (c : Char) : Char :=
  if isUpperAlpha c then Char.ofNat (c.toNat + 32) else c

/-- ASCII case raising of one character, the per-character behaviour of
Python `str.upper()` on the ASCII range. -/
def upperChar (c : Char) : Char :=
  if isLowerAlpha c then Char.ofNat (c.toNat - 32) else c

/-- Python `str.lower()`. -/
def lower (s : List Char) : List Char := s.map lowerChar

/-- Python `str.upper()`. -/
def upper (s : List Char) : List Char := s.map upperChar

/-- The ASCII whitespace characters stripped by Python `str.strip()`. -/
def isPyWhitespace (c : Char) : Bool :=
  c == ' ' || c == '\t' || c == '\n' || c == '\r' || c == '\x0b' || c == '\x0c'

/-- Python `str.strip()`: drop whitespace from both ends. -/
def strip (s : List Char) : List Char :=
  ((s.dropWhile isPyWhitespace).reverse.dropWhile isPyWhitespace).reverse

/-- The end-of-input positions accepted by an (un-`MULTILINE`) Python regex
`$`: the very end of the string, or just before one final newline.  A pattern
ending in a character class that cannot match `\n` therefore matches against
the string with one trailing newline removed, if there is one. -/
def stripTrailingNewline (s : List Char) : List Char :=
  if s.getLast? = some '\n' then s.dropLast else s

/-- Leftmost match of `re.search(r'-([A-Za-z0-9]+)\x24', s)` against `s`,
with `\x24` standing for the dollar anchor: scanning left to right, the match
fires at the first hyphen that is followed by a nonempty all-alphanumeric run
reaching the anchor, and the greedy capture is that whole run. -/
def extractCore : List Char → Option (List Char)
  | [] => none
  | c :: rest =>
      if c == '-' && !rest.isEmpty && rest.all isAsciiAlnum then some rest
      else extractCore rest

/-- `extract_group` of the spec: lines 32-34 of
`generate_blacklist_from_srrdb.py`, the search for `-([A-Za-z0-9]+)` anchored
at the dollar sign; Python's dollar also accepts the position before a single
trailing newline. -/
def extract_group (s : List Char) : Option (List Char) :=
  extractCore (stripTrailingNewline s)

/-- Does `S\d{2}E\d{2}` (case-insensitive) match at the head of the list? -/
def seHere : List Char → Bool
  | a :: b :: c :: d :: e :: f :: _ =>
      lowerChar a == 's' && isAsciiDigit b && isAsciiDigit c &&
      lowerChar d == 'e' && isAsciiDigit e && isAsciiDigit f
  | _ => false

/-- Unanchored search for `S\d{2}E\d{2}` (case-insensitive). -/
def seSearch : List Char → Bool
  | [] => false
  | c :: rest => seHere (c :: rest) || seSearch rest

/-- Does the first list occur at the head of the second? -/
def startsWith : List Char → List Char → Bool
  | [], _ => true
  | _ :: _, [] => false
  | p :: ps, c :: cs => p == c && startsWith ps cs

/-- Does `pat` occur contiguously anywhere inside the second list
(Python `pat in s`)? -/
def containsSeq (pat : List Char) : List Char → Bool
  | [] => pat.isEmpty
  | c :: rest => startsWith pat (c :: rest) || containsSeq pat rest

/-- Case-insensitive substring search, the effect of `re.IGNORECASE` on a
literal alternative of the classification patterns. -/
def containsCI (pat s : List Char) : Bool := containsSeq (lower pat) (lower s)

/-- `tv_pattern.search`, line 44 of `generate_blacklist_from_srrdb.py`:
`S\d{2}E\d{2}|Season|Episode` with `re.IGNORECASE`. -/
def tvSearch (s : List Char) : Bool :=
  seSearch s || containsCI (r"Season".data) s || containsCI (r"Episode".data) s

/-- The literal alternatives of `movie_pattern`, line 45 of
`generate_blacklist_from_srrdb.py`. -/
def movieTags : List (List Char) :=
  [ r"DVDRip".data, r"BluRay".data, r"BRRip".data, r"WEBRip".data,
    r"HDTV".data, r"WEB-DL".data, r"1080p".data, r"720p".data,
    r"2160p".data, r"4K".data ]

/-- `movie_pattern.search`, line 45 of `generate_blacklist_from_srrdb.py`. -/
def movieSearch (s : List Char) : Bool :=
  movieTags.any (fun t => containsCI t s)

/-- The spec's per-record classification tag. -/
inductive Classification
  | TV
  | Movie
  | Unclassified
  deriving DecidableEq, Repr

/-- `classify` of the spec: the `is_tv` / `is_movie` decision of lines 57-58
of `generate_blacklist_from_srrdb.py` read as a three-way tag. -/
def classify (rn : List Char) : Classification :=
  if tvSearch rn then Classification.TV
  else if movieSearch rn && !tvSearch rn then Classification.Movie
  else Classification.Unclassified

/-- Line 54 of `generate_blacklist_from_srrdb.py`:
`release_name = line.split(',')[0].strip()`. -/
def releaseNameOfLine (line : List Char) : List Char :=
  strip (line.takeWhile (fun c => c != ','))

/-- Insertion into a Python `set`, modelled on a duplicate-free list. -/
def insertSet (s : List (List Char)) (x : List Char) : List (List Char) :=
  if x ∈ s then s else s ++ [x]

/-- The per-line body of the loop of `filter_tv_movie_groups`, lines 54-63 of
`generate_blacklist_from_srrdb.py`: classify the release name, and only when
it is TV or movie attempt the group extraction and add the captured token. -/
def tvMovieStep (groups : List (List Char)) (line : List Char) : List (List Char) :=
  let rn := releaseNameOfLine line
  let isTv := tvSearch rn
  let isMovie := movieSearch rn && !tvSearch rn
  if isTv || isMovie then
    match extract_group rn with
    | some g => insertSet groups g
    | none => groups
  else groups

/-- `filter_tv_movie_groups` of `generate_blacklist_from_srrdb.py` over the
sequence of CSV lines. -/
def filter_tv_movie_groups (csvLines : List (List Char)) : List (List Char) :=
  csvLines.foldl tvMovieStep []

/-- Full match of `^[A-Za-z][A-Za-z0-9]{1,}` up to the dollar anchor: one
letter then at least one further alphanumeric, nothing else. -/
def validShapeCore : List Char → Bool
  | c :: d :: rest => isAsciiLetter c && isAsciiAlnum d && rest.all isAsciiAlnum
  | _ => false

/-- `is_valid_shape` of the spec: `valid_pattern.match(group)` on line 79 of
`generate_blacklist_from_srrdb.py`, pattern `^[A-Za-z][A-Za-z0-9]{1,}` with a
dollar anchor (line 73); Python's dollar also accepts the position before a
single trailing newline. -/
def is_valid_shape (t : List Char) : Bool :=
  validShapeCore (stripTrailingNewline t)

/-- Modelled from the spec: `is_valid_shape` as §4.2 words it — starts with a
letter, followed by one or more additional letters/digits, nothing else.
Kept separate from the translation of the source regex so the two can be
compared. -/
def shapeSpec (l : List Char) : Prop :=
  ∃ c rest, l = c :: rest ∧ isAsciiLetter c = true ∧ rest ≠ [] ∧
    rest.all isAsciiAlnum = true

/-- The alternatives of `exclude_pattern`, line 76 of
`generate_blacklist_from_srrdb.py`. -/
def excludeTerms : List (List Char) :=
  [ r"TEST".data, r"SAMPLE".data, r"PROOF".data, r"RARBG".data,
    r"ETRG".data, r"YTS".data, r"YIFY".data ]

/-- `is_excluded` of the spec: `exclude_pattern.match(group)` on line 79,
pattern `^(TEST|SAMPLE|PROOF|RARBG|ETRG|YTS|YIFY)` with `re.IGNORECASE`:
a case-insensitive prefix test against the fixed term list. -/
def is_excluded (t : List Char) : Bool :=
  excludeTerms.any (fun p => startsWith (lower p) (lower t))

/-- `filter_valid_groups` of `generate_blacklist_from_srrdb.py`, lines 78-80,
on the list representation of the mined set. -/
def filter_valid_groups (groups : List (List Char)) : List (List Char) :=
  groups.filter (fun g => is_valid_shape g && !is_excluded g)

/-- The sort key comparison of line 88 of `generate_blacklist_from_srrdb.py`:
`sorted(groups, key=lambda x: x.lower())`. -/
def keyLe (a b : List Char) : Prop := lower a ≤ lower b

instance : DecidableRel keyLe := fun a b =>
  inferInstanceAs (Decidable (lower a ≤ lower b))

/-- `sorted(groups, key=lambda x: x.lower())`, line 88. -/
def sortedGroups (groups : List (List Char)) : List (List Char) :=
  List.insertionSort keyLe groups

/-- The sequence of entries emitted into the `releaseGroups` Go slice
literal, lines 94-103 of `generate_blacklist_from_srrdb.py`: the sorted
groups, each lower-cased at formatting time (the 8-per-line chunking is
presentation only and does not change the sequence). -/
def emittedGroups (groups : List (List Char)) : List (List Char) :=
  (sortedGroups groups).map lower

/-- The static `genericTerms` Go list, lines 117-123 of
`generate_blacklist_from_srrdb.py`. -/
def genericTerms : List (List Char) :=
  [ r"group".data, r"release".data, r"rip".data, r"encode".data,
    r"repack".data, r"real".data, r"readnfo".data, r"limited".data,
    r"retail".data, r"subbed".data, r"dubbed".data, r"multi".data,
    r"unrated".data, r"extended".data, r"theatrical".data, r"directors".data,
    r"cut".data, r"edition".data, r"remux".data, r"hybrid".data,
    r"complete".data, r"collection".data ]

/-- The static `qualityMarkers` Go list, lines 126-132 of
`generate_blacklist_from_srrdb.py`. -/
def qualityMarkers : List (List Char) :=
  [ r"cam".data, r"ts".data, r"tc".data, r"r5".data, r"dvdscr".data,
    r"screener".data, r"dvdrip".data, r"bdrip".data, r"brrip".data,
    r"webrip".data, r"webdl".data, r"hdtv".data, r"pdtv".data, r"dsr".data,
    r"tvrip".data, r"vodrip".data, r"bluray".data, r"uhd".data, r"fhd".data,
    r"hd".data, r"sd".data, r"1080p".data, r"720p".data, r"2160p".data,
    r"480p".data, r"4k".data ]

/-- Go map assignment `m[k] = v` on an association-list model: replace the
binding if the key is present, append it otherwise. -/
def mapUpsert : List (List Char × Bool) → List Char → Bool → List (List Char × Bool)
  | [], k, v => [(k, v)]
  | p :: rest, k, v =>
      if p.1 = k then (k, v) :: rest else p :: mapUpsert rest k v

/-- Go map read `m[k]` (present bindings only). -/
def mapLookup : List (List Char × Bool) → List Char → Option Bool
  | [], _ => none
  | p :: rest, k => if p.1 = k then some p.2 else mapLookup rest k

/-- The key sequence of the association-list map model. -/
def mapKeys (m : List (List Char × Bool)) : List (List Char) :=
  m.map Prod.fst

/-- The map built by the generated Go function `buildReleaseGroupMap`,
lines 134-142 of `generate_blacklist_from_srrdb.py`: every entry of the
emitted slice, of `genericTerms` and of `qualityMarkers` is assigned the
value `true`, in that order. -/
def buildReleaseGroupMap (groups : List (List Char)) : List (List Char × Bool) :=
  (emittedGroups groups ++ genericTerms ++ qualityMarkers).foldl
    (fun m k => mapUpsert m k true) []

/-- One row of the PreDB.club API response, with the two fields
`update_blacklist.py` reads; a missing field is the `dict.get` default. -/
structure Release where
  team : Option (List Char)
  cat : Option (List Char)

/-- `release.get("team", "").strip().lower()`, line 52 of
`update_blacklist.py`. -/
def teamOf (re : Release) : List Char := lower (strip (re.team.getD []))

/-- `release.get("cat", "").upper()`, line 53 of `update_blacklist.py`. -/
def catOf (re : Release) : List Char := upper (re.cat.getD [])

/-- The per-release body of `categorize_groups`, lines 51-61 of
`update_blacklist.py`, acting on the pair of accumulated TV and movie sets. -/
def categorizeStep (acc : List (List Char) × List (List Char)) (re : Release) :
    List (List Char) × List (List Char) :=
  let team := teamOf re
  let cat := catOf re
  if team = [] ∨ team = r"none".data then acc
  else if containsSeq (r"TV".data) cat then (insertSet acc.1 team, acc.2)
  else if containsSeq (r"MOVIE".data) cat || containsSeq (r"X264".data) cat ||
      containsSeq (r"XVID".data) cat then (acc.1, insertSet acc.2 team)
  else acc

/-- `categorize_groups` of `update_blacklist.py` over a batch of releases. -/
def categorize_groups (releases : List Release) :
    List (List Char) × List (List Char) :=
  releases.foldl categorizeStep ([], [])

/-- `sorted(tv_groups)` / `sorted(movie_groups)`, lines 98-99 of
`update_blacklist.py`. -/
def sortedApiGroups (groups : List (List Char)) : List (List Char) :=
  List.insertionSort (fun a b : List Char => a ≤ b) groups

/-! ## Helper lemmas -/

theorem upper_toNat_bounds (c : Char) (h : isUpperAlpha c = true) :
    65 ≤ c.toNat ∧ c.toNat ≤ 90 := by
  unfold isUpperAlpha at h
  have h2 : 'A' ≤ c ∧ c ≤ 'Z' := by simpa using h
  exact ⟨h2.1, h2.2⟩

theorem ofNat_shift_not_upper (n : Nat) (h1 : 65 ≤ n) (h2 : n ≤ 90) :
    isUpperAlpha (Char.ofNat (n + 32)) = false := by
  interval_cases n <;> decide

theorem lowerChar_not_upper (c : Char) : isUpperAlpha (lowerChar c) = false := by
  by_cases h : isUpperAlpha c = true
  · rw [lowerChar, if_pos h]
    obtain ⟨h1, h2⟩ := upper_toNat_bounds c h
    exact ofNat_shift_not_upper c.toNat h1 h2
  · rw [lowerChar, if_neg h]
    simpa using h

theorem lowerChar_idem (c : Char) : lowerChar (lowerChar c) = lowerChar c := by
  rw [lowerChar, if_neg]
  simp [lowerChar_not_upper c]

theorem lower_idem (s : List Char) : lower (lower s) = lower s := by
  unfold lower
  rw [List.map_map]
  exact List.map_congr_left fun c _ => lowerChar_idem c

theorem hyphen_not_alnum : isAsciiAlnum '-' = false := by decide

theorem newline_not_alnum : isAsciiAlnum '\n' = false := by decide

theorem all_alnum_append_hyphen (a t : List Char) :
    (a ++ '-' :: t).all isAsciiAlnum = false := by
  simp [List.all_append, List.all_cons, hyphen_not_alnum]

theorem extractCore_append (a t : List Char) (ht : t ≠ [])
    (hall : t.all isAsciiAlnum = true) :
    extractCore (a ++ '-' :: t) = some t := by
  induction a with
  | nil =>
      have hne : (t.isEmpty : Bool) = false := by
        cases t with
        | nil => exact absurd rfl ht
        | cons x xs => rfl
      simp [extractCore, hne, hall]
  | cons x a ih =>
      have hfalse : (a ++ '-' :: t).all isAsciiAlnum = false :=
        all_alnum_append_hyphen a t
      simpa [extractCore, hfalse] using ih

theorem stripTrailingNewline_of_alnum_last (a t : List Char)
    (hall : t.all isAsciiAlnum = true) :
    stripTrailingNewline (a ++ '-' :: t) = a ++ '-' :: t := by
  unfold stripTrailingNewline
  rw [if_neg]
  intro hcontra
  rw [List.getLast?_append_cons,
    List.getLast?_eq_getLast_of_ne_nil (List.cons_ne_nil '-' t)] at hcontra
  have hmem : '\n' ∈ '-' :: t := by
    rw [← Option.some_inj.mp hcontra]
    exact List.getLast_mem _
  rcases List.mem_cons.mp hmem with h | h
  · exact absurd h.symm (by decide)
  · have := (List.all_eq_true.mp hall) '\n' h
    rw [newline_not_alnum] at this
    exact absurd this (by decide)

/-! ## C1 -/

/-- C1: for every input of the form `anything-TOKEN` where the token starts
with a letter, continues with at least one further alphanumeric and runs to
the end of the string, `extract_group` returns exactly the token — the one
delimited by the last hyphen, whatever hyphens the preceding part holds. -/
theorem extract_group_trailing_token (a rest : List Char) (c : Char)
    (hc : isAsciiLetter c = true) (hrest : rest ≠ [])
    (hall : rest.all isAsciiAlnum = true) :
    extract_group (a ++ '-' :: c :: rest) = some (c :: rest) := by
  have ht : (c :: rest) ≠ [] := List.cons_ne_nil _ _
  have hall2 : (c :: rest).all isAsciiAlnum = true := by
    simp [List.all_cons, hall, isAsciiAlnum, hc]
  unfold extract_group
  rw [stripTrailingNewline_of_alnum_last a _ hall2]
  exact extractCore_append a _ ht hall2

/-- Instance of the C1 theorem on a release name whose stem itself holds a
hyphen: the token after the final hyphen is the one captured. -/
theorem extract_group_trailing_token_case :
    extract_group ((r"Show-One".data) ++ '-' :: 'A' :: (r"B1".data)) =
      some ('A' :: (r"B1".data)) :=
  extract_group_trailing_token (r"Show-One".data) (r"B1".data) 'A'
    (by decide) (by decide) (by decide)

theorem getLast?_append_cons_mem (a : List Char) (c : Char) (t : List Char) :
    ∃ y, (a ++ c :: t).getLast? = some y ∧ y ∈ c :: t := by
  rw [List.getLast?_append_cons, List.getLast?_eq_getLast_of_ne_nil (List.cons_ne_nil c t)]
  exact ⟨_, rfl, List.getLast_mem _⟩

theorem extractCore_none_iff (l : List Char) :
    extractCore l = none ↔
      ¬ ∃ a t, l = a ++ '-' :: t ∧ t ≠ [] ∧ t.all isAsciiAlnum = true := by
  induction l with
  | nil =>
      constructor
      · rintro - ⟨a, t, habs, -, -⟩
        exact (List.append_ne_nil_of_right_ne_nil a (List.cons_ne_nil _ _)) habs.symm
      · intro _
        rfl
  | cons c rest ih =>
      by_cases hcond : (c == '-' && !rest.isEmpty && rest.all isAsciiAlnum) = true
      · have h1 : extractCore (c :: rest) = some rest := by
          simp only [extractCore]
          rw [if_pos hcond]
        simp only [h1]
        constructor
        · intro h
          exact absurd h (by simp)
        · intro h
          exfalso
          apply h
          have h3 : (c = '-' ∧ ¬ rest = []) ∧ ∀ x ∈ rest, isAsciiAlnum x = true := by
            simpa [Bool.not_eq_true'] using hcond
          exact ⟨[], rest, by simp [h3.1.1], h3.1.2, List.all_eq_true.mpr h3.2⟩
      · have h1 : extractCore (c :: rest) = extractCore rest := by
          simp only [extractCore]
          rw [if_neg hcond]
        rw [h1, ih]
        constructor
        · rintro h ⟨a, t, heq, ht, hall⟩
          apply h
          cases a with
          | nil =>
              exfalso
              apply hcond
              obtain ⟨hc, hr⟩ := List.cons.inj heq
              subst hc
              subst hr
              simp [List.isEmpty_iff, ht, hall]
          | cons x a2 =>
              obtain ⟨-, hr⟩ := List.cons.inj heq
              exact ⟨a2, t, hr, ht, hall⟩
        · rintro h ⟨a, t, heq, ht, hall⟩
          exact h ⟨c :: a, t, by rw [List.cons_append, heq], ht, hall⟩

/-! ## C3 -/

/-- C3 counterexample: the extraction regex class is `[A-Za-z0-9]+`, so a
digit-only trailing segment is a match, not an absence — the claim's
"digit-only with no letter returns absent" fails on `Movie-2024`. -/
theorem extract_group_digit_suffix_cex :
    extract_group (r"Movie-2024".data) = some (r"2024".data) ∧
      (r"2024".data).all isAsciiDigit = true := by decide

/-- C3 (amended): `extract_group` returns absent exactly when the string,
after the dollar-anchor adjustment for one trailing newline, has no trailing
hyphen followed by a nonempty all-alphanumeric run; in particular it is
absent when the string holds no hyphen at all or ends in a space.  A
digit-only trailing run is extracted, not absent (it is discarded later by
shape validation). -/
theorem extract_group_none_characterization (s : List Char) :
    (extract_group s = none ↔
      ¬ ∃ a t, stripTrailingNewline s = a ++ '-' :: t ∧ t ≠ [] ∧
        t.all isAsciiAlnum = true)
    ∧ ('-' ∉ s → extract_group s = none)
    ∧ (∀ u, s = u ++ [' '] → extract_group s = none) := by
  refine ⟨extractCore_none_iff _, ?_, ?_⟩
  · intro hmem
    rw [show extract_group s = extractCore (stripTrailingNewline s) from rfl,
      extractCore_none_iff]
    rintro ⟨a, t, heq, -, -⟩
    have h1 : '-' ∈ stripTrailingNewline s := by
      rw [heq]
      exact List.mem_append.mpr (Or.inr (List.mem_cons_self _ _))
    apply hmem
    unfold stripTrailingNewline at h1
    by_cases h2 : s.getLast? = some '\n'
    · rw [if_pos h2] at h1
      exact (List.dropLast_sublist s).subset h1
    · rwa [if_neg h2] at h1
  · intro u hu
    subst hu
    have hlast : (u ++ [' ']).getLast? = some ' ' := by
      rw [List.getLast?_append_cons]
      rfl
    rw [show extract_group (u ++ [' ']) =
        extractCore (stripTrailingNewline (u ++ [' '])) from rfl]
    rw [show stripTrailingNewline (u ++ [' ']) = u ++ [' '] from by
      unfold stripTrailingNewline
      rw [if_neg]
      rw [hlast]
      intro hc
      exact absurd (Option.some_inj.mp hc) (by decide)]
    rw [extractCore_none_iff]
    rintro ⟨a, t, heq, ht, hall⟩
    obtain ⟨y, hy, hymem⟩ := getLast?_append_cons_mem a '-' t
    rw [← heq, hlast] at hy
    have hspace : y = ' ' := (Option.some_inj.mp hy).symm
    subst hspace
    rcases List.mem_cons.mp hymem with h | h
    · exact absurd h (by decide)
    · have := (List.all_eq_true.mp hall) ' ' h
      exact absurd this (by decide)

/-- Closed instance of the amended C3 theorem: a string with no hyphen
yields no candidate token. -/
theorem extract_group_none_case : extract_group (r"abc".data) = none :=
  (extract_group_none_characterization (r"abc".data)).2.1 (by decide)

/-! ## C4 -/

/-- C4: classification returns TV whenever a TV indicator matches, whatever
the movie indicators do; it returns Movie exactly when a movie indicator
matches and no TV indicator does; and Unclassified exactly when neither
family matches. -/
theorem classify_tv_precedence (s : List Char) :
    (tvSearch s = true → classify s = Classification.TV)
    ∧ (classify s = Classification.Movie ↔
        (movieSearch s = true ∧ tvSearch s = false))
    ∧ (classify s = Classification.Unclassified ↔
        (tvSearch s = false ∧ movieSearch s = false)) := by
  unfold classify
  by_cases htv : tvSearch s = true
  · simp [htv]
  · have htv2 : tvSearch s = false := by simpa using htv
    by_cases hm : movieSearch s = true
    · simp [htv2, hm]
    · have hm2 : movieSearch s = false := by simpa using hm
      simp [htv2, hm2]

/-- Closed instance of the C4 theorem: a release name with both an `S01E01`
marker and the movie markers `1080p` and `BluRay` is classified TV. -/
theorem classify_tv_precedence_case :
    classify (r"Show.S01E01.1080p.BluRay-GRP".data) = Classification.TV :=
  (classify_tv_precedence (r"Show.S01E01.1080p.BluRay-GRP".data)).1 (by decide)

/-! ## C5 -/

/-- C5 counterexample: Python's dollar anchor also matches just before one
trailing newline, so the shape regex accepts a token holding the
non-alphanumeric character `\n` — the claimed "rejects any token containing
a non-alphanumeric character" fails on the token `AB` followed by a
newline. -/
theorem is_valid_shape_newline_cex :
    is_valid_shape ['A', 'B', '\n'] = true ∧ isAsciiAlnum '\n' = false := by
  decide

/-- C5 (amended): `is_valid_shape` accepts a token iff, after removing the
single trailing newline the dollar anchor tolerates, the token starts with a
letter followed by one or more further alphanumerics and nothing else; on
newline-free tokens this is exactly the claimed shape rule. -/
theorem is_valid_shape_characterization (t : List Char) :
    is_valid_shape t = true ↔ shapeSpec (stripTrailingNewline t) := by
  unfold is_valid_shape shapeSpec
  cases stripTrailingNewline t with
  | nil => simp [validShapeCore]
  | cons c rest =>
      cases rest with
      | nil => simp [validShapeCore]
      | cons d rest2 => simp [validShapeCore, List.all_cons, and_assoc]

/-- Closed instance of the amended C5 theorem at the token `A1`. -/
theorem is_valid_shape_case : shapeSpec (stripTrailingNewline (r"A1".data)) :=
  (is_valid_shape_characterization (r"A1".data)).mp (by decide)

/-! ## C6 -/

theorem startsWith_iff (p s : List Char) :
    startsWith p s = true ↔ ∃ r, s = p ++ r := by
  induction p generalizing s with
  | nil => simp [startsWith]
  | cons x ps ih =>
      cases s with
      | nil => simp [startsWith]
      | cons c cs =>
          constructor
          · intro h
            have h2 : x = c ∧ startsWith ps cs = true := by
              simpa [startsWith] using h
            obtain ⟨r, hr⟩ := (ih cs).mp h2.2
            exact ⟨r, by rw [hr, h2.1, List.cons_append]⟩
          · rintro ⟨r, hr⟩
            obtain ⟨hx, hcs⟩ := List.cons.inj hr
            have h3 : startsWith ps cs = true := (ih cs).mpr ⟨r, hcs⟩
            simp [startsWith, hx, h3]

/-- C6: a token is excluded iff its lower-cased value begins with the
lower-cased form of one of the seven fixed exclusion terms, and a candidate
survives `filter_valid_groups` exactly when it passes the shape test and is
not excluded. -/
theorem is_excluded_characterization (t : List Char) :
    (is_excluded t = true ↔ ∃ p ∈ excludeTerms, ∃ r, lower t = lower p ++ r)
    ∧ ∀ l, t ∈ filter_valid_groups l ↔
        (t ∈ l ∧ is_valid_shape t = true ∧ is_excluded t = false) := by
  constructor
  · unfold is_excluded
    rw [List.any_eq_true]
    constructor
    · rintro ⟨p, hp, hs⟩
      exact ⟨p, hp, (startsWith_iff _ _).mp hs⟩
    · rintro ⟨p, hp, hr⟩
      exact ⟨p, hp, (startsWith_iff _ _).mpr hr⟩
  · intro l
    unfold filter_valid_groups
    rw [List.mem_filter]
    simp [Bool.not_eq_true']

/-- Closed instance of the C6 theorem: `TestGroup` is excluded, being
case-insensitively prefixed by the term `TEST`. -/
theorem is_excluded_case :
    ∃ p ∈ excludeTerms, ∃ r, lower (r"TestGroup".data) = lower p ++ r :=
  (is_excluded_characterization (r"TestGroup".data)).1.mp (by decide)

/-! ## C9 -/

/-- C9: a CSV line whose release name matches neither the TV pattern family
nor the movie pattern family contributes nothing: the loop body returns the
mined set unchanged, so no candidate token is added even when the name ends
in a well-formed hyphen-delimited suffix. -/
theorem tvMovieStep_unclassified_skip (groups : List (List Char))
    (line : List Char)
    (htv : tvSearch (releaseNameOfLine line) = false)
    (hmv : movieSearch (releaseNameOfLine line) = false) :
    tvMovieStep groups line = groups := by
  unfold tvMovieStep
  simp [htv, hmv]

/-- Closed instance of the C9 theorem: a plain file name ending in a
well-formed `-Abc1` suffix still contributes nothing, matching no TV or
movie indicator. -/
theorem tvMovieStep_unclassified_skip_case :
    tvMovieStep [] (r"Random.File.Name-Abc1,field2".data) = [] :=
  tvMovieStep_unclassified_skip [] (r"Random.File.Name-Abc1,field2".data)
    (by decide) (by decide)

/-! ## C10 -/

/-- C10 counterexample: a release with a perfectly good team but a category
matching neither the TV nor the movie family (here `APPS`) is inserted into
neither set, against the claim that every team surviving the missing / empty
/ `none` filter is inserted. -/
theorem categorize_neutral_category_cex :
    categorize_groups [⟨some (r"GRP".data), some (r"APPS".data)⟩] = ([], []) ∧
      teamOf ⟨some (r"GRP".data), some (r"APPS".data)⟩ = r"grp".data := by
  decide

/-- C10 (amended): a release whose team is missing, empty after stripping,
or `none` case-insensitively contributes to neither set; a surviving team is
inserted lower-cased into the TV set when the upper-cased category contains
`TV`, even if a movie marker also occurs; into the movie set when no `TV`
occurs but `MOVIE`, `X264` or `XVID` does; and into neither set when the
category matches neither family. -/
theorem categorizeStep_characterization
    (acc : List (List Char) × List (List Char)) (re : Release) :
    ((teamOf re = [] ∨ teamOf re = r"none".data) → categorizeStep acc re = acc)
    ∧ (re.team = none → categorizeStep acc re = acc)
    ∧ (teamOf re ≠ [] → teamOf re ≠ r"none".data →
        containsSeq (r"TV".data) (catOf re) = true →
        categorizeStep acc re = (insertSet acc.1 (teamOf re), acc.2))
    ∧ (teamOf re ≠ [] → teamOf re ≠ r"none".data →
        containsSeq (r"TV".data) (catOf re) = false →
        (containsSeq (r"MOVIE".data) (catOf re) ||
          containsSeq (r"X264".data) (catOf re) ||
          containsSeq (r"XVID".data) (catOf re)) = true →
        categorizeStep acc re = (acc.1, insertSet acc.2 (teamOf re)))
    ∧ (containsSeq (r"TV".data) (catOf re) = false →
        (containsSeq (r"MOVIE".data) (catOf re) ||
          containsSeq (r"X264".data) (catOf re) ||
          containsSeq (r"XVID".data) (catOf re)) = false →
        categorizeStep acc re = acc) := by
  refine ⟨?_, ?_, ?_, ?_, ?_⟩
  · intro h
    simp only [categorizeStep]
    rw [if_pos h]
  · intro h
    have h0 : teamOf re = [] := by
      unfold teamOf
      rw [h]
      rfl
    simp only [categorizeStep]
    rw [if_pos (Or.inl h0)]
  · intro h1 h2 h3
    simp only [categorizeStep]
    rw [if_neg (by simp [h1, h2]), if_pos h3]
  · intro h1 h2 h3 h4
    simp only [categorizeStep]
    rw [if_neg (by simp [h1, h2]), if_neg (by simp [h3]), if_pos h4]
  · intro h3 h4
    simp only [categorizeStep]
    by_cases hteam : teamOf re = [] ∨ teamOf re = r"none".data
    · rw [if_pos hteam]
    · rw [if_neg hteam, if_neg (by simp [h3]), if_neg (by simp [h4])]

/-- Closed instance of the amended C10 theorem: a mixed category holding
both `TV` and `MOVIE` sends the lower-cased team to the TV set only. -/
theorem categorizeStep_characterization_case :
    categorizeStep ([], []) ⟨some (r"GrP".data), some (r"tv-1080p movie".data)⟩ =
      ([r"grp".data], []) := by
  have h := (categorizeStep_characterization ([], [])
    ⟨some (r"GrP".data), some (r"tv-1080p movie".data)⟩).2.2.1
    (by decide) (by decide) (by decide)
  rw [h]
  decide

/-! ## Association-list map lemmas -/

theorem mapLookup_upsert_self (m : List (List Char × Bool)) (k : List Char)
    (v : Bool) : mapLookup (mapUpsert m k v) k = some v := by
  induction m with
  | nil => simp [mapUpsert, mapLookup]
  | cons p rest ih =>
      by_cases hp : p.1 = k
      · simp [mapUpsert, hp, mapLookup]
      · simp [mapUpsert, hp, mapLookup, ih]

theorem mapLookup_upsert_ne (m : List (List Char × Bool)) (k k2 : List Char)
    (v : Bool) (h : k2 ≠ k) :
    mapLookup (mapUpsert m k v) k2 = mapLookup m k2 := by
  induction m with
  | nil => simp [mapUpsert, mapLookup, Ne.symm h]
  | cons p rest ih =>
      by_cases hp : p.1 = k
      · simp [mapUpsert, hp, mapLookup, Ne.symm h]
      · simp [mapUpsert, hp, mapLookup, ih]

theorem mapLookup_fold (L : List (List Char)) (m : List (List Char × Bool))
    (k : List Char) :
    mapLookup (L.foldl (fun m2 x => mapUpsert m2 x true) m) k =
      if k ∈ L then some true else mapLookup m k := by
  induction L generalizing m with
  | nil => simp
  | cons x L ih =>
      rw [List.foldl_cons, ih]
      by_cases hx : k ∈ L
      · simp [hx, List.mem_cons]
      · by_cases hk : k = x
        · subst hk
          simp [hx, mapLookup_upsert_self]
        · simp [hx, hk, mapLookup_upsert_ne m x k true hk, List.mem_cons]

theorem mapKeys_upsert (m : List (List Char × Bool)) (k : List Char) (v : Bool) :
    mapKeys (mapUpsert m k v) =
      if k ∈ mapKeys m then mapKeys m else mapKeys m ++ [k] := by
  induction m with
  | nil => simp [mapUpsert, mapKeys]
  | cons p rest ih =>
      by_cases hp : p.1 = k
      · simp [mapUpsert, hp, mapKeys, List.mem_cons]
      · simp only [mapUpsert, if_neg hp, mapKeys, List.map_cons] at ih ⊢
        rw [ih]
        have hkp : ¬ k = p.1 := fun h2 => hp h2.symm
        by_cases hk : k ∈ rest.map Prod.fst
        · simp [hk, hkp, List.mem_cons]
        · simp [hk, hkp, List.mem_cons]

theorem mapKeys_fold_facts (L : List (List Char)) (m : List (List Char × Bool)) :
    ((mapKeys m).Nodup →
      (mapKeys (L.foldl (fun m2 x => mapUpsert m2 x true) m)).Nodup)
    ∧ ∀ k, k ∈ mapKeys (L.foldl (fun m2 x => mapUpsert m2 x true) m) →
        k ∈ mapKeys m ∨ k ∈ L := by
  induction L generalizing m with
  | nil => exact ⟨fun h => h, fun k hk => Or.inl hk⟩
  | cons x L ih =>
      rw [List.foldl_cons]
      constructor
      · intro hnd
        apply (ih (mapUpsert m x true)).1
        rw [mapKeys_upsert]
        by_cases hx : x ∈ mapKeys m
        · rwa [if_pos hx]
        · rw [if_neg hx, List.nodup_append]
          exact ⟨hnd, List.nodup_singleton x,
            fun a ha hb => hx (by rwa [List.mem_singleton.mp hb] at ha)⟩
      · intro k hk
        rcases (ih (mapUpsert m x true)).2 k hk with h | h
        · rw [mapKeys_upsert] at h
          by_cases hx : x ∈ mapKeys m
          · rw [if_pos hx] at h
            exact Or.inl h
          · rw [if_neg hx] at h
            rcases List.mem_append.mp h with h2 | h2
            · exact Or.inl h2
            · exact Or.inr (by simp [List.mem_singleton.mp h2])
        · exact Or.inr (List.mem_cons_of_mem _ h)

theorem mem_emittedGroups (mined : List (List Char)) (k : List Char) :
    k ∈ emittedGroups mined ↔ ∃ g ∈ mined, k = lower g := by
  unfold emittedGroups sortedGroups
  rw [List.mem_map]
  constructor
  · rintro ⟨a, ha, rfl⟩
    exact ⟨a, (List.perm_insertionSort keyLe mined).mem_iff.mp ha, rfl⟩
  · rintro ⟨g, hg, rfl⟩
    exact ⟨g, (List.perm_insertionSort keyLe mined).mem_iff.mpr hg, rfl⟩

theorem genericTerms_lower : ∀ x ∈ genericTerms, lower x = x := by decide

theorem qualityMarkers_lower : ∀ x ∈ qualityMarkers, lower x = x := by decide

/-! ## C7 -/

/-- C7: the generated Go map holds the value `true` exactly at the
lower-cased mined tokens and at the members of the two static lists — the
static members are present whatever the mined input was — and it never
holds any value other than `true`. -/
theorem buildReleaseGroupMap_lookup (mined : List (List Char)) (k : List Char) :
    (mapLookup (buildReleaseGroupMap mined) k = some true ↔
      ((∃ g ∈ mined, k = lower g) ∨ k ∈ genericTerms ∨ k ∈ qualityMarkers))
    ∧ ∀ v, mapLookup (buildReleaseGroupMap mined) k = some v → v = true := by
  have hm : mapLookup (buildReleaseGroupMap mined) k =
      if k ∈ emittedGroups mined ++ genericTerms ++ qualityMarkers then some true
      else none := by
    unfold buildReleaseGroupMap
    rw [mapLookup_fold]
    rfl
  have hmem : k ∈ emittedGroups mined ++ genericTerms ++ qualityMarkers ↔
      ((∃ g ∈ mined, k = lower g) ∨ k ∈ genericTerms ∨ k ∈ qualityMarkers) := by
    rw [List.mem_append, List.mem_append, mem_emittedGroups, or_assoc]
  constructor
  · rw [hm, ← hmem]
    constructor
    · intro h2
      by_cases hin : k ∈ emittedGroups mined ++ genericTerms ++ qualityMarkers
      · exact hin
      · rw [if_neg hin] at h2
        cases h2
    · intro hin
      rw [if_pos hin]
  · intro v hv
    rw [hm] at hv
    by_cases hin : k ∈ emittedGroups mined ++ genericTerms ++ qualityMarkers
    · rw [if_pos hin] at hv
      exact (Option.some_inj.mp hv).symm
    · rw [if_neg hin] at hv
      cases hv

/-- Closed instance of the C7 theorem: with one mined token `GRP`, the map
answers `true` at `grp`. -/
theorem buildReleaseGroupMap_lookup_case :
    mapLookup (buildReleaseGroupMap [r"GRP".data]) (r"grp".data) = some true :=
  (buildReleaseGroupMap_lookup [r"GRP".data] (r"grp".data)).1.mpr (by decide)

/-! ## C2 -/

/-- C2 counterexample: the mined set keeps original case (insertion does not
lower-case), so two case-variants of one group survive side by side and the
serialized slice literal then holds the same lower-cased entry twice —
against the claimed "no duplicate entries in the serialized output". -/
theorem emitted_duplicates_cex :
    [r"Sparks".data, r"SPARKS".data].Nodup ∧
      emittedGroups [r"Sparks".data, r"SPARKS".data] =
        [r"sparks".data, r"sparks".data] ∧
      ¬ (emittedGroups [r"Sparks".data, r"SPARKS".data]).Nodup := by decide

/-- C2 (amended): lower-casing happens at emission time, not at insertion
into the mined set, and the serialized slice may repeat a lower-cased entry;
the final Go map nevertheless holds no duplicate key, every key is its own
lower-cased form (so no two distinct keys are case-variants of one logical
group), and every mined token is found lower-cased in the map. -/
theorem blacklist_map_dedup (mined : List (List Char)) :
    (mapKeys (buildReleaseGroupMap mined)).Nodup
    ∧ (∀ k ∈ mapKeys (buildReleaseGroupMap mined), lower k = k)
    ∧ ∀ g ∈ mined, mapLookup (buildReleaseGroupMap mined) (lower g) = some true := by
  refine ⟨?_, ?_, ?_⟩
  · unfold buildReleaseGroupMap
    exact (mapKeys_fold_facts _ []).1 List.nodup_nil
  · intro k hk
    unfold buildReleaseGroupMap at hk
    rcases (mapKeys_fold_facts _ []).2 k hk with h | h
    · simp [mapKeys] at h
    · rcases List.mem_append.mp h with h2 | h2
      · rcases List.mem_append.mp h2 with h3 | h3
        · obtain ⟨g, -, rfl⟩ := (mem_emittedGroups mined k).mp h3
          exact lower_idem g
        · exact genericTerms_lower k h3
      · exact qualityMarkers_lower k h2
  · intro g hg
    unfold buildReleaseGroupMap
    rw [mapLookup_fold, if_pos]
    exact List.mem_append.mpr (Or.inl (List.mem_append.mpr
      (Or.inl ((mem_emittedGroups mined (lower g)).mpr ⟨g, hg, rfl⟩))))

/-- Closed instance of the amended C2 theorem: the mixed-case mined token
`SpArKs` is found in the final map under its lower-cased form. -/
theorem blacklist_map_dedup_case :
    mapLookup (buildReleaseGroupMap [r"SpArKs".data]) (r"sparks".data) =
      some true := by
  have h := (blacklist_map_dedup [r"SpArKs".data]).2.2 (r"SpArKs".data)
    (by decide)
  rw [show lower (r"SpArKs".data) = r"sparks".data from by decide] at h
  exact h

/-! ## C8 -/

instance : IsTotal (List Char) keyLe :=
  ⟨fun a b => le_total (lower a) (lower b)⟩

instance : IsTrans (List Char) keyLe :=
  ⟨fun _ _ _ hab hbc => le_trans hab hbc⟩

/-- C8: the emitted sequence of mined tokens is sorted (the entries are the
lower-cased forms, ordered by that lower-cased key), and it is a function of
the set of mined tokens alone — any reordering of the mined input yields the
identical output sequence; likewise for the plainly sorted API-side group
arrays. -/
theorem emitted_sorted_deterministic (l₁ l₂ : List (List Char))
    (h : List.Perm l₁ l₂) :
    emittedGroups l₁ = emittedGroups l₂
    ∧ List.Sorted (fun a b : List Char => a ≤ b) (emittedGroups l₁)
    ∧ sortedApiGroups l₁ = sortedApiGroups l₂
    ∧ List.Sorted (fun a b : List Char => a ≤ b) (sortedApiGroups l₁) := by
  have hs : ∀ l : List (List Char),
      List.Sorted (fun a b : List Char => a ≤ b) (emittedGroups l) := by
    intro l
    have h1 : List.Sorted keyLe (List.insertionSort keyLe l) :=
      List.sorted_insertionSort keyLe l
    exact List.pairwise_map.mpr h1
  have hperm : List.Perm (emittedGroups l₁) (emittedGroups l₂) :=
    ((List.perm_insertionSort keyLe l₁).map lower).trans
      ((h.map lower).trans
        (((List.perm_insertionSort keyLe l₂).map lower).symm))
  have hapi : ∀ l : List (List Char),
      List.Sorted (fun a b : List Char => a ≤ b) (sortedApiGroups l) :=
    fun l => List.sorted_insertionSort _ l
  have hapivperm : List.Perm (sortedApiGroups l₁) (sortedApiGroups l₂) :=
    (List.perm_insertionSort _ l₁).trans
      (h.trans ((List.perm_insertionSort _ l₂).symm))
  exact ⟨List.eq_of_perm_of_sorted hperm (hs l₁) (hs l₂), hs l₁,
    List.eq_of_perm_of_sorted hapivperm (hapi l₁) (hapi l₂), hapi l₁⟩

/-- Closed instance of the C8 theorem: swapping two mined tokens leaves the
emitted sequence unchanged. -/
theorem emitted_sorted_deterministic_case :
    emittedGroups [r"B2".data, r"a1".data] =
      emittedGroups [r"a1".data, r"B2".data] :=
  (emitted_sorted_deterministic [r"B2".data, r"a1".data]
    [r"a1".data, r"B2".data] (List.Perm.swap _ _ _)).1

end Jellysink
